import Mathlib

/-!
# Verification of `example/cpp.cc`

The program consists of two C functions over `int` (`add`, `fibonacci`) and a
demonstration `main`.  `int` is embedded as a mathematical integer together
with an explicit reduction into the 32-bit two's-complement range after every
arithmetic operation (`wrap`).  The `for` loop of `fibonacci` is embedded as a
fuel-bounded iteration of its body on the state `(i, a, b)`: one unit of fuel
is spent per evaluation of the loop condition, and running out of fuel yields
`none`.
-/

namespace CppExample

/-! ## Machine integers -/

/-- Smallest value of a 32-bit signed `int`. -/
def INT_MIN : Int := -2147483648

/-- Largest value of a 32-bit signed `int`. -/
def INT_MAX : Int := 2147483647

/-- Membership in the range of a 32-bit signed `int`. -/
def IsInt32 (z : Int) : Prop := INT_MIN ≤ z ∧ z ≤ INT_MAX

instance (z : Int) : Decidable (IsInt32 z) := by
  unfold IsInt32; exact inferInstance

/-- Reduction of a mathematical integer into the 32-bit signed range
(two's-complement wraparound modulo `2^32`). -/
def wrap (z : Int) : Int := (z + 2147483648) % 4294967296 - 2147483648

/-! ## `add` (cpp.cc, lines 7-10) -/

/-- Embedding of `int add(int x, int y)`: `int result = x + y; return result;`. -/
def add (x y : Int) : Int :=
  let result := wrap (x + y)
  result

/-! ## `fibonacci` (cpp.cc, lines 13-24) -/

/-- The variables live in the `for` loop of `fibonacci`: the counter `i` and the
two accumulators `a`, `b` (`temp` is local to one execution of the body). -/
structure LoopState where
  i : Int
  a : Int
  b : Int
  deriving DecidableEq, Repr

/-- State on entry to the loop: `int a = 0, b = 1; int i = 2`. -/
def loopInit : LoopState := { i := 2, a := 0, b := 1 }

/-- One execution of the loop body followed by the increment `i++`:
`temp = a + b; a = b; b = temp; i++`. -/
def loopStep (s : LoopState) : LoopState :=
  let temp := wrap (s.a + s.b)
  { i := wrap (s.i + 1), a := s.b, b := temp }

/-- The loop `for (...; i <= n; i++) body`, started in state `s`.  Each
evaluation of the condition `i <= n` costs one unit of fuel; the result is the
state in which the condition is found false, or `none` when the fuel is
exhausted first. -/
def fibLoop : Nat → Int → LoopState → Option LoopState
  | 0, _, _ => none
  | fuel + 1, n, s =>
    if s.i ≤ n then fibLoop fuel n (loopStep s) else some s

/-- Embedding of `int fibonacci(int n)`. -/
def fibonacci (fuel : Nat) (n : Int) : Option Int :=
  if n ≤ 0 then some 0
  else if n = 1 then some 1
  else (fibLoop fuel n loopInit).map (fun s => s.b)

/-- The states reached after each successive execution of the loop body of
`fibonacci` (in order), for the loop started in state `s`; same fuel
discipline as `fibLoop`. -/
def fibTrace : Nat → Int → LoopState → List LoopState
  | 0, _, _ => []
  | fuel + 1, n, s =>
    if s.i ≤ n then loopStep s :: fibTrace fuel n (loopStep s) else []

/-- The mathematical (unreduced) values of the additions `a + b` performed by
the successive executions of the loop body (line 19, `temp = a + b`), in order,
for the loop started in state `s`; same fuel discipline as `fibLoop`. -/
def fibSums : Nat → Int → LoopState → List Int
  | 0, _, _ => []
  | fuel + 1, n, s =>
    if s.i ≤ n then (s.a + s.b) :: fibSums fuel n (loopStep s) else []

/-- The additions `a + b` performed inside a call `fibonacci(n)`: none on the
two early returns, those of the loop otherwise. -/
def fibonacciSums (fuel : Nat) (n : Int) : List Int :=
  if n ≤ 0 then []
  else if n = 1 then []
  else fibSums fuel n loopInit

/-! ## `main` (cpp.cc, lines 29-34) -/

/-- Decimal rendering of an `int` as done by `std::cout << int`. -/
def showInt (z : Int) : String :=
  if z < 0 then "-" ++ Nat.repr z.natAbs else Nat.repr z.natAbs

/-- Embedding of `int main(int argc, char* argv[])`: the lines written to
standard output (each terminated by `std::endl`) and the exit status. -/
def main (fuel : Nat) (_argc : Int) (_argv : List String) :
    Option (List String × Int) :=
  let out0 : List String := []
  let out1 := out0 ++ ["Testing C++ functions:"]
  let out2 := out1 ++ ["add(5, 7) = " ++ showInt (add 5 7)]
  match fibonacci fuel 10 with
  | none => none
  | some f =>
    let out3 := out2 ++ ["fibonacci(10) = " ++ showInt f]
    some (out3, 0)

/-! ## Mathematical Fibonacci sequence -/

/-- The mathematical Fibonacci sequence `F(0)=0, F(1)=1, F(k)=F(k-1)+F(k-2)`. -/
def fibSeq : Nat → Int
  | 0 => 0
  | 1 => 1
  | k + 2 => fibSeq (k + 1) + fibSeq k

/-! ## Auxiliary facts -/

theorem wrap_eq_self {z : Int} (h : IsInt32 z) : wrap z = z := by
  unfold IsInt32 INT_MIN INT_MAX at h
  unfold wrap
  omega

theorem wrap_isInt32 (z : Int) : IsInt32 (wrap z) := by
  unfold wrap IsInt32 INT_MIN INT_MAX
  omega

theorem fibSeq_eq_fib : ∀ k : Nat, fibSeq k = (Nat.fib k : Int)
  | 0 => by simp [fibSeq]
  | 1 => by simp [fibSeq]
  | k + 2 => by
    rw [fibSeq, fibSeq_eq_fib (k + 1), fibSeq_eq_fib k, Nat.fib_add_two]
    push_cast
    ring

theorem fibSeq_nonneg (k : Nat) : 0 ≤ fibSeq k := by
  rw [fibSeq_eq_fib]
  exact Int.ofNat_nonneg _

theorem fibSeq_mono {j k : Nat} (h : j ≤ k) : fibSeq j ≤ fibSeq k := by
  rw [fibSeq_eq_fib, fibSeq_eq_fib]
  exact_mod_cast Nat.fib_mono h

theorem fibSeq_46 : fibSeq 46 = 1836311903 := by
  rw [fibSeq_eq_fib]
  norm_num

theorem fibSeq_isInt32 {k : Nat} (h : k ≤ 46) : IsInt32 (fibSeq k) := by
  have h1 := fibSeq_nonneg k
  have h2 := fibSeq_mono h
  rw [fibSeq_46] at h2
  unfold IsInt32 INT_MIN INT_MAX
  omega

theorem loopStep_i {s : LoopState} (hlo : INT_MIN ≤ s.i) (hhi : s.i < INT_MAX) :
    (loopStep s).i = s.i + 1 := by
  unfold INT_MIN at hlo
  unfold INT_MAX at hhi
  show wrap (s.i + 1) = s.i + 1
  apply wrap_eq_self
  unfold IsInt32 INT_MIN INT_MAX
  omega

/-- While no overflow occurs, `k` executions of the loop body from the initial
state leave the counter at `k + 2` and the accumulators at `F(k)`, `F(k+1)`. -/
theorem iterate_loopInit (k : Nat) (hk : k ≤ 45) :
    loopStep^[k] loopInit
      = { i := (k : Int) + 2, a := fibSeq k, b := fibSeq (k + 1) } := by
  induction k with
  | zero => simp [loopInit, fibSeq]
  | succ k ih =>
    rw [Function.iterate_succ_apply', ih (by omega)]
    have hb : IsInt32 (fibSeq (k + 2)) := fibSeq_isInt32 (by omega)
    have hsum : fibSeq k + fibSeq (k + 1) = fibSeq (k + 2) := by
      rw [fibSeq]; ring
    have hi : IsInt32 ((k : Int) + 2 + 1) := by
      unfold IsInt32 INT_MIN INT_MAX; omega
    simp only [loopStep, hsum, wrap_eq_self hb, wrap_eq_self hi]
    congr 1

/-- For `n` below `INT_MAX` the loop exits after exactly `d` executions of its
body, where `d` is the distance of the counter from `n + 1`. -/
theorem fibLoop_eq_iterate (n : Int) (hn : n < INT_MAX) :
    ∀ (d : Nat) (s : LoopState) (fuel : Nat), INT_MIN ≤ s.i →
      s.i + d = n + 1 → d < fuel → fibLoop fuel n s = some (loopStep^[d] s) := by
  intro d
  induction d with
  | zero =>
    intro s fuel _ hd hf
    obtain ⟨f, rfl⟩ : ∃ f, fuel = f + 1 := ⟨fuel - 1, by omega⟩
    have : ¬ s.i ≤ n := by push_cast at hd; omega
    simp [fibLoop, this]
  | succ d ih =>
    intro s fuel hlo hd hf
    obtain ⟨f, rfl⟩ : ∃ f, fuel = f + 1 := ⟨fuel - 1, by omega⟩
    have hle : s.i ≤ n := by push_cast at hd; omega
    have hi : (loopStep s).i = s.i + 1 := loopStep_i hlo (by omega)
    have hlo2 : INT_MIN ≤ (loopStep s).i := by rw [hi]; omega
    have hd2 : (loopStep s).i + (d : Int) = n + 1 := by
      rw [hi]; push_cast at hd; omega
    rw [fibLoop, if_pos hle, ih (loopStep s) f hlo2 hd2 (by omega),
      Function.iterate_succ_apply]

/-- With `n = INT_MAX` the loop condition holds in every reachable state, so no
amount of fuel lets the loop exit. -/
theorem fibLoop_INT_MAX (fuel : Nat) :
    ∀ s : LoopState, IsInt32 s.i → fibLoop fuel INT_MAX s = none := by
  induction fuel with
  | zero => intro s _; rfl
  | succ f ih =>
    intro s hs
    rw [fibLoop, if_pos hs.2]
    exact ih (loopStep s) (wrap_isInt32 _)

/-- Entry `k` of the trace is the state after `k + 1` executions of the body,
provided the counter stays at most `n` that long. -/
theorem fibTrace_getElem (n : Int) (hn : n ≤ INT_MAX) :
    ∀ (k : Nat) (s : LoopState) (fuel : Nat), INT_MIN ≤ s.i →
      s.i + k ≤ n → k < fuel →
      (fibTrace fuel n s)[k]? = some (loopStep^[k + 1] s) := by
  intro k
  induction k with
  | zero =>
    intro s fuel _ hk hf
    obtain ⟨f, rfl⟩ : ∃ f, fuel = f + 1 := ⟨fuel - 1, by omega⟩
    have hle : s.i ≤ n := by push_cast at hk; omega
    simp [fibTrace, hle]
  | succ k ih =>
    intro s fuel hlo hk hf
    obtain ⟨f, rfl⟩ : ∃ f, fuel = f + 1 := ⟨fuel - 1, by omega⟩
    have hle : s.i ≤ n := by push_cast at hk; omega
    have hi : (loopStep s).i = s.i + 1 := loopStep_i hlo (by push_cast at hk; omega)
    have hlo2 : INT_MIN ≤ (loopStep s).i := by rw [hi]; omega
    have hk2 : (loopStep s).i + (k : Int) ≤ n := by
      rw [hi]; push_cast at hk; omega
    rw [fibTrace, if_pos hle, List.getElem?_cons_succ,
      ih (loopStep s) f hlo2 hk2 (by omega)]
    rfl

/-- The state in which `fibLoop` exits is the last entry of the trace (or the
start state when the body never ran). -/
theorem fibLoop_eq_trace_last (n : Int) :
    ∀ (fuel : Nat) (s t : LoopState), fibLoop fuel n s = some t →
      t = (fibTrace fuel n s).getLastD s ∧ ¬ t.i ≤ n := by
  intro fuel
  induction fuel with
  | zero => intro s t h; simp [fibLoop] at h
  | succ f ih =>
    intro s t h
    rw [fibLoop] at h
    by_cases hle : s.i ≤ n
    · rw [if_pos hle] at h
      obtain ⟨h1, h2⟩ := ih (loopStep s) t h
      refine ⟨?_, h2⟩
      rw [fibTrace, if_pos hle, h1]
      cases fibTrace f n (loopStep s) <;> simp [List.getLastD]
    · rw [if_neg hle] at h
      cases h
      exact ⟨by simp [fibTrace, hle], hle⟩

/-- Value of `fibonacci` on the overflow-free domain. -/
theorem fibonacci_eq_aux (k fuel : Nat) (hk : k ≤ 46) (hf : k ≤ fuel) :
    fibonacci fuel (k : Int) = some (fibSeq k) := by
  unfold fibonacci
  by_cases h0 : k = 0
  · subst h0; simp [fibSeq]
  by_cases h1 : k = 1
  · subst h1; simp [fibSeq]
  have hk2 : 2 ≤ k := by omega
  have hn0 : ¬ ((k : Int) ≤ 0) := by omega
  have hn1 : ¬ ((k : Int) = 1) := by omega
  rw [if_neg hn0, if_neg hn1]
  have hloop := fibLoop_eq_iterate (k : Int) (by unfold INT_MAX; omega) (k - 1)
    loopInit fuel (by simp [loopInit, INT_MIN])
    (by simp only [loopInit]; omega) (by omega)
  rw [hloop, iterate_loopInit (k - 1) (by omega)]
  have : k - 1 + 1 = k := by omega
  simp [this]

/-! ## The claims -/

/-- C1: for every `n` with `0 ≤ n ≤ 46`, `fibonacci(n)` returns the `n`-th
number of the mathematical Fibonacci sequence, under 32-bit signed arithmetic
(for any fuel allowing at least `n` evaluations of the loop condition). -/
theorem fibonacci_correct (n : Int) (fuel : Nat) (h0 : 0 ≤ n) (h46 : n ≤ 46)
    (hf : n.toNat ≤ fuel) : fibonacci fuel n = some (fibSeq n.toNat) := by
  obtain ⟨k, rfl⟩ := Int.eq_ofNat_of_zero_le h0
  simp only [Int.toNat_ofNat] at hf ⊢
  exact fibonacci_eq_aux k fuel (by omega) hf

theorem fibonacci_correct_witness :
    (0 : Int) ≤ 46 ∧ (46 : Int) ≤ 46 ∧ (46 : Int).toNat ≤ 46 ∧
      fibonacci 46 46 = some (fibSeq (46 : Int).toNat) :=
  ⟨by decide, by decide, by decide,
    fibonacci_correct 46 46 (by decide) (by decide) (by decide)⟩

/-- C2: `add` always produces a 32-bit signed value (it has no error result),
and whenever the mathematical sum `x + y` of two 32-bit signed integers lies in
`[-2^31, 2^31 - 1]` that value is exactly `x + y`. -/
theorem add_exact (x y : Int) (_hx : IsInt32 x) (_hy : IsInt32 y) :
    IsInt32 (add x y) ∧ (IsInt32 (x + y) → add x y = x + y) :=
  ⟨wrap_isInt32 _, fun hs => wrap_eq_self hs⟩

theorem add_exact_witness :
    IsInt32 2147483640 ∧ IsInt32 7 ∧ IsInt32 (2147483640 + 7) ∧
      add 2147483640 7 = 2147483640 + 7 :=
  ⟨by decide, by decide, by decide,
    (add_exact 2147483640 7 (by decide) (by decide)).2 (by decide)⟩

/-- C3: for every 32-bit signed `n ≤ 0`, `fibonacci(n)` returns 0 without
entering the loop: the result is 0 for every fuel, in particular with fuel 0,
which does not allow a single evaluation of the loop condition. -/
theorem fibonacci_nonpos (n : Int) (fuel : Nat) (_hn : IsInt32 n) (h : n ≤ 0) :
    fibonacci fuel n = some 0 ∧ fibonacci 0 n = some 0 := by
  simp [fibonacci, h]

theorem fibonacci_nonpos_witness :
    IsInt32 (-2147483648) ∧ (-2147483648 : Int) ≤ 0 ∧
      fibonacci 7 (-2147483648) = some 0 ∧ fibonacci 0 (-2147483648) = some 0 :=
  ⟨by decide, by decide, fibonacci_nonpos (-2147483648) 7 (by decide) (by decide)⟩

/-- C4: for every `n` with `2 ≤ n ≤ 46`, the three calls `fibonacci(n)`,
`fibonacci(n-1)`, `fibonacci(n-2)` return values `u`, `v`, `w` with
`u = v + w`, and the sum `v + w` does not overflow a 32-bit signed integer. -/
theorem fibonacci_recurrence (n : Int) (fuel : Nat) (h2 : 2 ≤ n) (h46 : n ≤ 46)
    (hf : n.toNat ≤ fuel) :
    ∃ u v w, fibonacci fuel n = some u ∧ fibonacci fuel (n - 1) = some v ∧
      fibonacci fuel (n - 2) = some w ∧ IsInt32 (v + w) ∧ u = v + w := by
  obtain ⟨k, rfl⟩ := Int.eq_ofNat_of_zero_le (by omega : 0 ≤ n)
  simp only [Int.toNat_ofNat] at hf
  obtain ⟨m, rfl⟩ : ∃ m, k = m + 2 := ⟨k - 2, by omega⟩
  have e1 : ((m + 2 : Nat) : Int) - 1 = ((m + 1 : Nat) : Int) := by push_cast; ring
  have e2 : ((m + 2 : Nat) : Int) - 2 = ((m : Nat) : Int) := by push_cast; ring
  refine ⟨fibSeq (m + 2), fibSeq (m + 1), fibSeq m, ?_, ?_, ?_, ?_, ?_⟩
  · exact fibonacci_eq_aux (m + 2) fuel (by omega) hf
  · rw [e1]; exact fibonacci_eq_aux (m + 1) fuel (by omega) (by omega)
  · rw [e2]; exact fibonacci_eq_aux m fuel (by omega) (by omega)
  · have h := fibSeq_isInt32 (by omega : m + 2 ≤ 46)
    rwa [fibSeq] at h
  · rw [fibSeq]

theorem fibonacci_recurrence_witness :
    (2 : Int) ≤ 46 ∧ (46 : Int) ≤ 46 ∧ (46 : Int).toNat ≤ 46 ∧
      ∃ u v w, fibonacci 46 46 = some u ∧ fibonacci 46 (46 - 1) = some v ∧
        fibonacci 46 (46 - 2) = some w ∧ IsInt32 (v + w) ∧ u = v + w :=
  ⟨by decide, by decide, by decide,
    fibonacci_recurrence 46 46 (by decide) (by decide) (by decide)⟩

/-- C5: `fibonacci(0) == 0`, `fibonacci(1) == 1`, `fibonacci(2) == 1` and
`fibonacci(10) == 55` (for any fuel of at least 10). -/
theorem fibonacci_values (fuel : Nat) (hf : 10 ≤ fuel) :
    fibonacci fuel 0 = some 0 ∧ fibonacci fuel 1 = some 1 ∧
      fibonacci fuel 2 = some 1 ∧ fibonacci fuel 10 = some 55 := by
  have h0 := fibonacci_eq_aux 0 fuel (by omega) (by omega)
  have h1 := fibonacci_eq_aux 1 fuel (by omega) (by omega)
  have h2 := fibonacci_eq_aux 2 fuel (by omega) (by omega)
  have h10 := fibonacci_eq_aux 10 fuel (by omega) (by omega)
  have v0 : fibSeq 0 = 0 := by decide
  have v1 : fibSeq 1 = 1 := by decide
  have v2 : fibSeq 2 = 1 := by decide
  have v10 : fibSeq 10 = 55 := by decide
  rw [v0] at h0
  rw [v1] at h1
  rw [v2] at h2
  rw [v10] at h10
  exact ⟨h0, h1, h2, h10⟩

theorem fibonacci_values_witness :
    10 ≤ 10 ∧ fibonacci 10 0 = some 0 ∧ fibonacci 10 1 = some 1 ∧
      fibonacci 10 2 = some 1 ∧ fibonacci 10 10 = some 55 :=
  ⟨by decide, fibonacci_values 10 (by decide)⟩

/-- C6: `add(x, y) == add(y, x)` for all integers `x`, `y` (in particular all
32-bit signed ones), overflow being wraparound modulo `2^32`. -/
theorem add_commutative (x y : Int) : add x y = add y x := by
  unfold add
  rw [Int.add_comm]

/-- C7: for every 32-bit signed `x`, `add(0, x) == x` and `add(x, 0) == x`. -/
theorem add_zero_identity (x : Int) (hx : IsInt32 x) :
    add 0 x = x ∧ add x 0 = x := by
  unfold add
  simp only [Int.zero_add, Int.add_zero]
  exact ⟨wrap_eq_self hx, wrap_eq_self hx⟩

theorem add_zero_identity_witness :
    IsInt32 (-2147483648) ∧ add 0 (-2147483648) = -2147483648 ∧
      add (-2147483648) 0 = -2147483648 :=
  ⟨by decide, add_zero_identity (-2147483648) (by decide)⟩

/-- C8, as stated: for no fuel does the entry point produce exactly the two
lines `add(5, 7) = 12` and `fibonacci(10) = 55` with exit status 0. -/
theorem main_two_lines_refuted :
    ¬ ∃ fuel : Nat, main fuel 1 ["cpp"] =
        some (["add(5, 7) = 12", "fibonacci(10) = 55"], 0) := by
  rintro ⟨fuel, h⟩
  unfold main at h
  cases hfib : fibonacci fuel 10 with
  | none => simp [hfib] at h
  | some f =>
    simp only [hfib] at h
    have hlen := congrArg (fun r => r.map (fun p => p.1.length)) h
    simp at hlen

/-- C8, amended: the entry point, whatever its arguments, prints exactly three
lines, the banner `Testing C++ functions:` followed by `add(5, 7) = 12` and
`fibonacci(10) = 55`, and returns exit status 0 (for any fuel of at least 10). -/
theorem main_output (fuel : Nat) (argc : Int) (argv : List String)
    (hf : 10 ≤ fuel) :
    main fuel argc argv =
      some (["Testing C++ functions:", "add(5, 7) = 12", "fibonacci(10) = 55"], 0) := by
  have h10 : fibonacci fuel 10 = some 55 := by
    have h := fibonacci_eq_aux 10 fuel (by omega) hf
    have v10 : fibSeq 10 = 55 := by decide
    rw [v10] at h
    exact h
  unfold main
  simp only [h10]
  decide

theorem main_output_witness :
    10 ≤ 10 ∧ main 10 1 ["cpp"] =
      some (["Testing C++ functions:", "add(5, 7) = 12", "fibonacci(10) = 55"], 0) :=
  ⟨by decide, main_output 10 1 ["cpp"] (by decide)⟩

/-- C9, as stated: at `n = 2^31 - 1` no amount of fuel makes `fibonacci`
return a value, because the wrapped counter never exceeds `n`. -/
theorem fibonacci_INT_MAX_diverges :
    ¬ ∃ (fuel : Nat) (v : Int), fibonacci fuel 2147483647 = some v := by
  rintro ⟨fuel, v, h⟩
  have hl : fibLoop fuel INT_MAX loopInit = none :=
    fibLoop_INT_MAX fuel loopInit (by decide)
  have hl2 : fibLoop fuel 2147483647 loopInit = none := hl
  simp [fibonacci, hl2] at h

/-- C9, amended: for every 32-bit signed `n` other than `2^31 - 1` the loop of
`fibonacci` terminates and a 32-bit signed value is returned (for any fuel
allowing at least `n` evaluations of the loop condition). -/
theorem fibonacci_terminates (n : Int) (fuel : Nat) (_hn : IsInt32 n)
    (hlt : n < INT_MAX) (hf : n.toNat ≤ fuel) :
    ∃ v, fibonacci fuel n = some v ∧ IsInt32 v := by
  unfold fibonacci
  by_cases h0 : n ≤ 0
  · exact ⟨0, by simp [h0], by decide⟩
  by_cases h1 : n = 1
  · exact ⟨1, by simp [h0, h1], by decide⟩
  rw [if_neg h0, if_neg h1]
  obtain ⟨d, hd⟩ : ∃ d : Nat, n = (d : Int) + 2 :=
    ⟨(n - 2).toNat, by omega⟩
  have hloop := fibLoop_eq_iterate n hlt (d + 1) loopInit fuel
    (by simp [loopInit, INT_MIN]) (by simp only [loopInit]; push_cast; omega)
    (by omega)
  rw [hloop, Function.iterate_succ_apply']
  exact ⟨_, rfl, wrap_isInt32 _⟩

theorem fibonacci_terminates_witness :
    IsInt32 47 ∧ (47 : Int) < INT_MAX ∧ (47 : Int).toNat ≤ 47 ∧
      ∃ v, fibonacci 47 47 = some v ∧ IsInt32 v :=
  ⟨by decide, by decide, by decide,
    fibonacci_terminates 47 47 (by decide) (by decide) (by decide)⟩

/-- C10: loop invariant of `fibonacci`.  The accumulators start at
`(a, b) = (0, 1) = (F(0), F(1))`; for every 32-bit signed `n` and every `i`
with `2 ≤ i ≤ min(n, 46)`, the state after the body has run for counter value
`i` (entry `i - 2` of the trace, the counter already incremented to `i + 1`)
has `a = F(i-1)` and `b = F(i)`; and a step maps `(a, b)` to `(b, a + b)`
whenever `a + b` is representable. -/
theorem fibonacci_loop_invariant (n : Int) (i fuel : Nat) (hn : IsInt32 n)
    (h2 : 2 ≤ i) (hin : (i : Int) ≤ n) (h46 : i ≤ 46) (hf : i - 1 ≤ fuel) :
    (loopInit.a = fibSeq 0 ∧ loopInit.b = fibSeq 1) ∧
      (fibTrace fuel n loopInit)[i - 2]? =
        some { i := (i : Int) + 1, a := fibSeq (i - 1), b := fibSeq i } ∧
      (∀ s : LoopState, IsInt32 (s.a + s.b) →
        (loopStep s).a = s.b ∧ (loopStep s).b = s.a + s.b) := by
  refine ⟨⟨rfl, rfl⟩, ?_, fun s hs => ⟨rfl, wrap_eq_self hs⟩⟩
  obtain ⟨m, rfl⟩ : ∃ m, i = m + 2 := ⟨i - 2, by omega⟩
  have htr := fibTrace_getElem n hn.2 m loopInit fuel
    (by simp [loopInit, INT_MIN]) (by simp only [loopInit]; push_cast at hin; omega)
    (by omega)
  have e : m + 2 - 2 = m := by omega
  rw [e, htr, iterate_loopInit (m + 1) (by omega)]
  have e2 : m + 2 - 1 = m + 1 := by omega
  rw [e2]
  congr 2

theorem fibonacci_loop_invariant_witness :
    IsInt32 50 ∧ 2 ≤ 46 ∧ ((46 : Nat) : Int) ≤ 50 ∧ 46 ≤ 46 ∧ 46 - 1 ≤ 45 ∧
      (loopInit.a = fibSeq 0 ∧ loopInit.b = fibSeq 1) ∧
      (fibTrace 45 50 loopInit)[46 - 2]? =
        some { i := ((46 : Nat) : Int) + 1, a := fibSeq (46 - 1), b := fibSeq 46 } ∧
      (∀ s : LoopState, IsInt32 (s.a + s.b) →
        (loopStep s).a = s.b ∧ (loopStep s).b = s.a + s.b) :=
  ⟨by decide, by decide, by decide, by decide, by decide,
    fibonacci_loop_invariant 50 46 45 (by decide) (by decide) (by decide)
      (by decide) (by decide)⟩

/-! ## Auxiliary facts on iteration counts and on the additions -/

/-- The counter advances by one per body execution as long as it stays
representable. -/
theorem iterate_i :
    ∀ (d : Nat) (s : LoopState), INT_MIN ≤ s.i → s.i + d ≤ INT_MAX →
      (loopStep^[d] s).i = s.i + d := by
  intro d
  induction d with
  | zero => intro s _ _; simp
  | succ d ih =>
    intro s hlo hhi
    have hi : (loopStep s).i = s.i + 1 := loopStep_i hlo (by push_cast at hhi; omega)
    rw [Function.iterate_succ_apply, ih (loopStep s) (by rw [hi]; omega)
      (by rw [hi]; push_cast at hhi; omega), hi]
    push_cast
    ring

/-- For `n` below `INT_MAX` the trace has one entry per unit of distance of the
counter from `n + 1`. -/
theorem fibTrace_length (n : Int) (hn : n < INT_MAX) :
    ∀ (d : Nat) (s : LoopState) (fuel : Nat), INT_MIN ≤ s.i →
      s.i + d = n + 1 → d < fuel → (fibTrace fuel n s).length = d := by
  intro d
  induction d with
  | zero =>
    intro s fuel _ hd hf
    obtain ⟨f, rfl⟩ : ∃ f, fuel = f + 1 := ⟨fuel - 1, by omega⟩
    have : ¬ s.i ≤ n := by push_cast at hd; omega
    simp [fibTrace, this]
  | succ d ih =>
    intro s fuel hlo hd hf
    obtain ⟨f, rfl⟩ : ∃ f, fuel = f + 1 := ⟨fuel - 1, by omega⟩
    have hle : s.i ≤ n := by push_cast at hd; omega
    have hi : (loopStep s).i = s.i + 1 := loopStep_i hlo (by omega)
    have hlo2 : INT_MIN ≤ (loopStep s).i := by rw [hi]; omega
    have hd2 : (loopStep s).i + (d : Int) = n + 1 := by
      rw [hi]; push_cast at hd; omega
    rw [fibTrace, if_pos hle, List.length_cons, ih (loopStep s) f hlo2 hd2 (by omega)]

/-- Reducing each recorded sum to 32 bits gives the accumulator `b` of the
corresponding trace entry: the sums are those of the same loop. -/
theorem fibSums_wrap_eq_trace (n : Int) :
    ∀ (fuel : Nat) (s : LoopState),
      (fibSums fuel n s).map wrap = (fibTrace fuel n s).map (fun t => t.b) := by
  intro fuel
  induction fuel with
  | zero => intro s; rfl
  | succ f ih =>
    intro s
    by_cases hle : s.i ≤ n
    · rw [fibSums, fibTrace, if_pos hle, if_pos hle, List.map_cons, List.map_cons,
        ih (loopStep s)]
      rfl
    · rw [fibSums, fibTrace, if_neg hle, if_neg hle]
      rfl

/-- For `n` below `INT_MAX` the recorded sums are those of the first `d`
iterates of the body, `d` the distance of the counter from `n + 1`. -/
theorem fibSums_eq_iterate (n : Int) (hn : n < INT_MAX) :
    ∀ (d : Nat) (s : LoopState) (fuel : Nat), INT_MIN ≤ s.i →
      s.i + d = n + 1 → d < fuel →
      fibSums fuel n s
        = (List.range d).map (fun k => (loopStep^[k] s).a + (loopStep^[k] s).b) := by
  intro d
  induction d with
  | zero =>
    intro s fuel _ hd hf
    obtain ⟨f, rfl⟩ : ∃ f, fuel = f + 1 := ⟨fuel - 1, by omega⟩
    have : ¬ s.i ≤ n := by push_cast at hd; omega
    simp [fibSums, this]
  | succ d ih =>
    intro s fuel hlo hd hf
    obtain ⟨f, rfl⟩ : ∃ f, fuel = f + 1 := ⟨fuel - 1, by omega⟩
    have hle : s.i ≤ n := by push_cast at hd; omega
    have hi : (loopStep s).i = s.i + 1 := loopStep_i hlo (by omega)
    have hlo2 : INT_MIN ≤ (loopStep s).i := by rw [hi]; omega
    have hd2 : (loopStep s).i + (d : Int) = n + 1 := by
      rw [hi]; push_cast at hd; omega
    rw [fibSums, if_pos hle, ih (loopStep s) f hlo2 hd2 (by omega),
      List.range_succ_eq_map, List.map_cons, List.map_map]
    rfl

/-- The additions of `fibonacci(k)` for `2 ≤ k ≤ 47` have the mathematical
values `F(2), ..., F(k)`. -/
theorem fibonacciSums_eq (k fuel : Nat) (h2 : 2 ≤ k) (hk : k ≤ 47) (hf : k ≤ fuel) :
    fibonacciSums fuel (k : Int) = (List.range (k - 1)).map (fun j => fibSeq (j + 2)) := by
  unfold fibonacciSums
  have hn0 : ¬ ((k : Int) ≤ 0) := by omega
  have hn1 : ¬ ((k : Int) = 1) := by omega
  rw [if_neg hn0, if_neg hn1,
    fibSums_eq_iterate (k : Int) (by unfold INT_MAX; omega) (k - 1) loopInit fuel
      (by simp [loopInit, INT_MIN]) (by simp only [loopInit]; omega) (by omega)]
  apply List.map_congr_left
  intro j hj
  rw [List.mem_range] at hj
  rw [iterate_loopInit j (by omega)]
  show fibSeq j + fibSeq (j + 1) = fibSeq (j + 2)
  rw [fibSeq]
  ring

theorem fibSeq_47 : fibSeq 47 = 2971215073 := by
  rw [fibSeq_eq_fib]
  norm_num

/-- Under wraparound `fibonacci(47)` returns `F(47) - 2^32`. -/
theorem fibonacci_47 (fuel : Nat) (hf : 47 ≤ fuel) :
    fibonacci fuel 47 = some (-1323752223) := by
  have hloop := fibLoop_eq_iterate 47 (by decide) 46 loopInit fuel
    (by decide) (by decide) (by omega)
  have hsum : fibSeq 45 + fibSeq 46 = fibSeq 47 := by
    rw [fibSeq_eq_fib, fibSeq_eq_fib, fibSeq_eq_fib]
    norm_num
  have hw : wrap 2971215073 = -1323752223 := by decide
  unfold fibonacci
  rw [if_neg (by decide), if_neg (by decide), hloop, Function.iterate_succ_apply',
    iterate_loopInit 45 (by omega)]
  simp only [loopStep, Option.map_some', hsum, fibSeq_47, hw]

/-! ## The claims on the safe bound, the iteration count and monotonicity -/

/-- C11: 46 is the exact safe bound.  For every `n` with `0 ≤ n ≤ 46` each of
the `n - 1` additions `a + b` performed inside `fibonacci(n)` (none for
`n ≤ 1`) has its mathematical value in `[-2^31, 2^31 - 1]`; for `n = 47` the
addition of the last iteration has the value `2971215073 > 2^31 - 1`, and under
wraparound `fibonacci(47)` is negative and differs from `F(47) = 2971215073`. -/
theorem fibonacci_safe_bound (n : Int) (fuel : Nat) (h0 : 0 ≤ n) (h46 : n ≤ 46)
    (hf : n.toNat ≤ fuel) :
    ((fibonacciSums fuel n).length = (n - 1).toNat ∧
        ∀ z ∈ fibonacciSums fuel n, IsInt32 z) ∧
      (∀ fuel47 : Nat, 47 ≤ fuel47 →
        (fibonacciSums fuel47 47).getLast? = some 2971215073 ∧
          INT_MAX < 2971215073 ∧
          ∃ v, fibonacci fuel47 47 = some v ∧ v < 0 ∧ v ≠ fibSeq 47 ∧
            fibSeq 47 = 2971215073) := by
  constructor
  · obtain ⟨k, rfl⟩ := Int.eq_ofNat_of_zero_le h0
    simp only [Int.toNat_ofNat] at hf
    by_cases hk0 : k = 0
    · subst hk0; simp [fibonacciSums]
    by_cases hk1 : k = 1
    · subst hk1; simp [fibonacciSums]
    rw [fibonacciSums_eq k fuel (by omega) (by omega) hf]
    constructor
    · rw [List.length_map, List.length_range]
      omega
    · intro z hz
      rw [List.mem_map] at hz
      obtain ⟨j, hj, rfl⟩ := hz
      rw [List.mem_range] at hj
      exact fibSeq_isInt32 (by omega)
  · intro fuel47 hf47
    have hs := fibonacciSums_eq 47 fuel47 (by omega) (by omega) hf47
    simp only [Nat.cast_ofNat] at hs
    refine ⟨?_, by decide, -1323752223, fibonacci_47 fuel47 hf47, by decide, ?_,
      fibSeq_47⟩
    · rw [hs, show (47 - 1 : Nat) = 45 + 1 from rfl, List.range_succ, List.map_append,
        List.map_singleton, List.getLast?_append, List.getLast?_singleton]
      show some (fibSeq 47) = some 2971215073
      rw [fibSeq_47]
    · rw [fibSeq_47]
      decide

theorem fibonacci_safe_bound_witness :
    (0 : Int) ≤ 46 ∧ (46 : Int) ≤ 46 ∧ (46 : Int).toNat ≤ 46 ∧
      ((fibonacciSums 46 46).length = ((46 : Int) - 1).toNat ∧
        ∀ z ∈ fibonacciSums 46 46, IsInt32 z) ∧
      (∀ fuel47 : Nat, 47 ≤ fuel47 →
        (fibonacciSums fuel47 47).getLast? = some 2971215073 ∧
          INT_MAX < 2971215073 ∧
          ∃ v, fibonacci fuel47 47 = some v ∧ v < 0 ∧ v ≠ fibSeq 47 ∧
            fibSeq 47 = 2971215073) :=
  ⟨by decide, by decide, by decide,
    fibonacci_safe_bound 46 46 (by decide) (by decide) (by decide)⟩

/-- C12: for every `n` with `2 ≤ n < 2^31 - 1` the loop of `fibonacci(n)`
executes its body exactly `n - 1` times (the length of the trace) and then
exits in a state with `i = n + 1`, whose `b` is the value returned. -/
theorem fibonacci_iteration_count (n : Int) (fuel : Nat) (h2 : 2 ≤ n)
    (hlt : n < INT_MAX) (hf : n.toNat ≤ fuel) :
    (fibTrace fuel n loopInit).length = (n - 1).toNat ∧
      ∃ t, fibLoop fuel n loopInit = some t ∧ t.i = n + 1 ∧
        fibonacci fuel n = some t.b := by
  obtain ⟨d, hd⟩ : ∃ d : Nat, n = (d : Int) + 1 := ⟨(n - 1).toNat, by omega⟩
  have hlo : INT_MIN ≤ loopInit.i := by decide
  have hdist : loopInit.i + (d : Int) = n + 1 := by
    simp only [loopInit]; omega
  have hfd : d < fuel := by omega
  have hmax : loopInit.i + (d : Int) ≤ INT_MAX := by
    rw [hdist]; unfold INT_MAX at hlt ⊢; omega
  refine ⟨?_, loopStep^[d] loopInit, fibLoop_eq_iterate n hlt d loopInit fuel hlo hdist hfd,
    ?_, ?_⟩
  · rw [fibTrace_length n hlt d loopInit fuel hlo hdist hfd]
    omega
  · rw [iterate_i d loopInit hlo hmax, hdist]
  · unfold fibonacci
    rw [if_neg (by omega), if_neg (by omega),
      fibLoop_eq_iterate n hlt d loopInit fuel hlo hdist hfd]
    rfl

theorem fibonacci_iteration_count_witness :
    (2 : Int) ≤ 10 ∧ (10 : Int) < INT_MAX ∧ (10 : Int).toNat ≤ 10 ∧
      (fibTrace 10 10 loopInit).length = ((10 : Int) - 1).toNat ∧
      ∃ t, fibLoop 10 10 loopInit = some t ∧ t.i = 10 + 1 ∧
        fibonacci 10 10 = some t.b :=
  ⟨by decide, by decide, by decide,
    fibonacci_iteration_count 10 10 (by decide) (by decide) (by decide)⟩

/-- C13: for all `m`, `n` with `0 ≤ m ≤ n ≤ 46`, the calls `fibonacci(m)` and
`fibonacci(n)` return values `u`, `v` with `0 ≤ u ≤ v`. -/
theorem fibonacci_monotone (m n : Int) (fuel : Nat) (h0 : 0 ≤ m) (hmn : m ≤ n)
    (h46 : n ≤ 46) (hf : n.toNat ≤ fuel) :
    ∃ u v, fibonacci fuel m = some u ∧ fibonacci fuel n = some v ∧
      0 ≤ u ∧ u ≤ v := by
  obtain ⟨j, rfl⟩ := Int.eq_ofNat_of_zero_le h0
  obtain ⟨k, rfl⟩ := Int.eq_ofNat_of_zero_le (by omega : 0 ≤ n)
  simp only [Int.toNat_ofNat] at hf
  have hjk : j ≤ k := by omega
  exact ⟨fibSeq j, fibSeq k, fibonacci_eq_aux j fuel (by omega) (by omega),
    fibonacci_eq_aux k fuel (by omega) hf, fibSeq_nonneg j, fibSeq_mono hjk⟩

theorem fibonacci_monotone_witness :
    (0 : Int) ≤ 1 ∧ (1 : Int) ≤ 46 ∧ (46 : Int) ≤ 46 ∧ (46 : Int).toNat ≤ 46 ∧
      ∃ u v, fibonacci 46 1 = some u ∧ fibonacci 46 46 = some v ∧
        0 ≤ u ∧ u ≤ v :=
  ⟨by decide, by decide, by decide, by decide,
    fibonacci_monotone 1 46 46 (by decide) (by decide) (by decide) (by decide)⟩

end CppExample
